import Mathlib

/-!
Verification of the HypER training/evaluation core (`HypER/hyper.py`).

The embedding models the orchestration logic of `Experiment`:
indexing of raw triples, the `defaultdict`-backed ER-vocabulary,
batch slicing and multi-hot target construction, label smoothing,
the filtered ranking step of `evaluate`, the per-epoch loss recording,
the evaluation schedule, and the event trace of `train_and_eval`.
Scores and targets are modelled over `ℚ`; Python tuples used as
dictionary keys are modelled as `List Nat` so that the 2-tuple keys of
`get_er_vocab` and the 3-tuple rows passed to `get_batch` by `evaluate`
live in one key type, as they do in one Python dict.
-/

set_option autoImplicit false

namespace HyperSpec

/-- An indexed triple `(head_id, relation_id, tail_id)`. -/
abbrev Triple := Nat × Nat × Nat

/-- A Python tuple used as a dictionary key (tuples of any arity share a dict). -/
abbrev Key := List Nat

/-- The `defaultdict(list)` of `get_er_vocab`, as an insertion-ordered
association list from keys to tail-id lists. -/
abbrev ERVocab := List (Key × List Nat)

/-- Dictionary lookup (no `defaultdict` side effect): the value stored at `k`,
if present. -/
def vocabFind : ERVocab → Key → Option (List Nat)
  | [], _ => none
  | (k', ts) :: rest, k => if k' = k then some ts else vocabFind rest k

/-- `er_vocab[k].append(t)` on a `defaultdict(list)`: extend the list at `k`,
inserting `k ↦ [t]` at the end when `k` is absent. -/
def vocabAppend : ERVocab → Key → Nat → ERVocab
  | [], k, t => [(k, [t])]
  | (k', ts) :: rest, k, t =>
      if k' = k then (k', ts ++ [t]) :: rest else (k', ts) :: vocabAppend rest k t

/-- `defaultdict` read `er_vocab[k]`: the stored list when present, otherwise
the empty list, *with the side effect* of inserting `k ↦ []`. -/
def vocabGet (v : ERVocab) (k : Key) : List Nat × ERVocab :=
  match vocabFind v k with
  | some ts => (ts, v)
  | none => ([], v ++ [(k, [])])

/-- The dictionary key `(triple[0], triple[1])` of a triple. -/
def tripleKey (tr : Triple) : Key := [tr.1, tr.2.1]

/-- A full 3-tuple used as a key, as `evaluate` does when it passes
`test_data_idxs` rows to `get_batch` (line 71). -/
def tripleAsEvalKey (tr : Triple) : Key := [tr.1, tr.2.1, tr.2.2]

/-- `get_er_vocab`: group the triples by `(head, relation)`, appending each
tail id to its key's list. -/
def get_er_vocab (data : List Triple) : ERVocab :=
  data.foldl (fun v tr => vocabAppend v (tripleKey tr) tr.2.2) []

/-- Rebuild a triple from a vocabulary entry: key `[h, r]` with tail `t`
gives `(h, r, t)`. (Keys produced by `get_er_vocab` always have length two.) -/
def keyTailToTriple (k : Key) (t : Nat) : Triple :=
  match k with
  | [h, r] => (h, r, t)
  | _ => (0, 0, t)

/-- Flatten an ER-vocabulary back into the triples it records. -/
def flattenVocab (v : ERVocab) : List Triple :=
  v.flatMap (fun p => p.2.map (keyTailToTriple p.1))

/-- Python slice `er_vocab_pairs[idx : min(idx + batch_size, len(er_vocab_pairs))]`
(line 49 of `hyper.py`). -/
def sliceBatch (pairs : List Key) (B idx : Nat) : List Key :=
  (pairs.drop idx).take (min (idx + B) pairs.length - idx)

/-- The offsets `range(0, V, B)` of the batch loops (lines 70 and 155):
`ceil(V / B)` offsets `0, B, 2B, ...`. -/
def strideOffsets (V B : Nat) : List Nat :=
  (List.range ((V + B - 1) / B)).map (· * B)

/-- numpy row assignment `targets[idx, er_vocab[pair]] = 1.` applied to a zero
row of width `N` (lines 50-52). -/
def targetRow (ts : List Nat) (N : Nat) : List ℚ :=
  ts.foldl (fun row t => row.set t 1) (List.replicate N 0)

/-- The target-construction loop of `get_batch` (lines 50-52): one row per key
of the batch, threading the `defaultdict` state through every `er_vocab[pair]`
read. -/
def buildTargets (N : Nat) (v : ERVocab) : List Key → List (List ℚ) × ERVocab
  | [] => ([], v)
  | k :: ks =>
      let r := vocabGet v k
      let rest := buildTargets N r.2 ks
      (targetRow r.1 N :: rest.1, rest.2)

/-- `get_batch` (lines 48-56): slice the key list and build the dense
multi-hot target matrix; returns the batch, the target rows, and the possibly
mutated vocabulary. -/
def get_batch (B N : Nat) (v : ERVocab) (pairs : List Key) (idx : Nat) :
    List Key × List (List ℚ) × ERVocab :=
  let batch := sliceBatch pairs B idx
  let bt := buildTargets N v batch
  (batch, bt.1, bt.2)

/-- One entry of line 167: `(1.0 - label_smoothing) * t + 1.0 / targets.size(1)`
where `ncols` is the number of columns of the target matrix. -/
def smoothEntry (s : ℚ) (ncols : Nat) (t : ℚ) : ℚ := (1 - s) * t + 1 / (ncols : ℚ)

/-- Lines 166-167: when a nonzero smoothing factor is configured
(`if self.label_smoothing:`), transform the target matrix entrywise. -/
def applyLabelSmoothing (s : ℚ) (ncols : Nat) (targets : List (List ℚ)) :
    List (List ℚ) :=
  if s = 0 then targets else targets.map (fun row => row.map (smoothEntry s ncols))

/-- Lines 83-85 of `evaluate`: save the raw score of the true tail, zero the
scores at every filtered index, then restore the true tail's raw score. -/
def applyFilter (scores : List ℚ) (filt : List Nat) (e2 : Nat) : List ℚ :=
  (filt.foldl (fun s i => s.set i 0) scores).set e2 (scores.getD e2 0)

/-- Stable descending insertion of index `i` into an index list sorted by
score: `i` is placed after every index whose score is ≥ its own. -/
def insertDescIdx (scores : List ℚ) (i : Nat) : List Nat → List Nat
  | [] => [i]
  | j :: rest =>
      if scores.getD i 0 ≤ scores.getD j 0 then j :: insertDescIdx scores i rest
      else i :: j :: rest

/-- The index output of `torch.sort(..., descending=True)` (line 87), as a
stable descending sort of the index range by score. -/
def sortIdxsDesc (scores : List ℚ) : List Nat :=
  (List.range scores.length).foldl (fun acc i => insertDescIdx scores i acc) []

/-- Lines 82-92 for one evaluation row: filter the scores, sort descending,
and return `1 +` the 0-based position of the true tail among the sorted
indices (`np.where(sort_idxs[j] == e2_idx[j])[0][0]`, then `rank + 1`). -/
def evalRank (scores : List ℚ) (filt : List Nat) (e2 : Nat) : Nat :=
  (sortIdxsDesc (applyFilter scores filt e2)).indexOf e2 + 1

/-- The rank `evaluate` records for triple `tr` given its score row: the
filter list is the `er_vocab` entry for `(h, r)` built from the full dataset
`d.data` (line 66), read through the `defaultdict` (line 82). -/
def evaluateRank (fullData : List Triple) (scores : List ℚ) (tr : Triple) : Nat :=
  evalRank scores (vocabGet (get_er_vocab fullData) (tripleKey tr)).1 tr.2.2

/-- From the spec's words: the list of all known true tails for `(h, r)`
in a dataset. -/
def knownTails (data : List Triple) (h r : Nat) : List Nat :=
  (data.filter (fun tr => tr.1 = h ∧ tr.2.1 = r)).map (fun tr => tr.2.2)

/-- From the spec's words: the score vector in which the score of every tail
in the filter set has been replaced by `0.0`, except that the true tail `e2`
retains its original raw score. -/
def specFilteredScores (scores : List ℚ) (filt : List Nat) (e2 : Nat) : List ℚ :=
  (List.range scores.length).map
    (fun i => if i ∈ filt ∧ i ≠ e2 then 0 else scores.getD i 0)

/-- Lines 153-174: the state of one epoch's batch loop is the `losses` list
and the current value of the `loss` variable; nothing is appended inside the
batch loop, and `losses.append(loss.item())` runs once after it. -/
def epochRecordedLosses (batchLoss : Nat → ℚ) (V B : Nat) : List ℚ :=
  let st := (strideOffsets V B).foldl
    (fun (st : List ℚ × Option ℚ) j => (st.1, some (batchLoss j))) ([], none)
  match st.2 with
  | some l => st.1 ++ [l]
  | none => st.1

/-- Which split an evaluation call targets. -/
inductive Split where
  | valid
  | test
  deriving DecidableEq

/-- One call to `evaluate`, with the model-mode flags in force when it runs. -/
structure EvalCall where
  split : Split
  trainingMode : Bool
  gradTracking : Bool
  deriving DecidableEq

/-- Lines 177-184: the evaluation calls epoch `it` makes. Both are guarded by
`if d.valid_data and d.test_data` (Python truthiness: both lists non-empty);
inside the guard the model is put in eval mode under `torch.no_grad()`, the
validation split is always evaluated, and the test split is added when
`not it % 2`, i.e. when `it` is even. -/
def epochEvalCalls (validData testData : List Triple) (it : Nat) : List EvalCall :=
  if validData ≠ [] ∧ testData ≠ [] then
    ⟨Split.valid, false, false⟩ ::
      (if it % 2 = 0 then [⟨Split.test, false, false⟩] else [])
  else []

/-- A raw string triple as supplied by the data loader. -/
abbrev RawTriple := String × String × String

/-- Python dict lookup `m[k]`; `none` models the raised `KeyError`. -/
def idxLookup (m : List (String × Nat)) (k : String) : Option Nat :=
  match m with
  | [] => none
  | (k', i) :: rest => if k' = k then some i else idxLookup rest k

/-- `get_data_idxs` (lines 37-40): replace every triple component by its index
from the training-built maps; `none` models the `KeyError` raised at the first
missing identifier, with no fallback value. -/
def get_data_idxs (entityIdxs relationIdxs : List (String × Nat)) :
    List RawTriple → Option (List Triple)
  | [] => some []
  | tr :: rest => do
      let h ← idxLookup entityIdxs tr.1
      let r ← idxLookup relationIdxs tr.2.1
      let t ← idxLookup entityIdxs tr.2.2
      let others ← get_data_idxs entityIdxs relationIdxs rest
      pure ((h, r, t) :: others)

/-- A durable-storage or lifecycle event of `train_and_eval`. -/
inductive RunEvent where
  | writeEntityIndex
  | writeRelationIndex
  | createModel (name : String)
  | trainEpoch (it : Nat)
  | writeModelState (it : Nat)
  | writeEntityEmbeddings (it : Nat)
  | writeRelationEmbeddings (it : Nat)
  deriving DecidableEq

/-- ASCII lowercasing of one character, as Python's `str.lower` acts on the
ASCII algorithm names. -/
def asciiLower (c : Char) : Char :=
  if 'A' ≤ c ∧ c ≤ 'Z' then Char.ofNat (c.toNat + 32) else c

/-- `model_name.lower()` on ASCII names. -/
def pyLower (s : String) : String := String.mk (s.data.map asciiLower)

/-- The lowercased names recognised by the branch at lines 124-133. -/
def knownAlgorithms : List String := ["hype", "hyper", "distmult", "conve", "complex"]

/-- The event trace of `train_and_eval` (lines 113-200) paired with whether
the run gets past model selection: the index mappings are saved at lines
121-122 *before* the algorithm branch at lines 124-133; an unrecognised name
leaves `model` unbound so line 134 raises `UnboundLocalError` and the trace
stops with `false`; otherwise the model is created and every epoch trains and
then checkpoints the model state and the two embedding tensors. -/
def trainAndEvalTrace (modelName : String) (numIterations : Nat) :
    List RunEvent × Bool :=
  let pre := [RunEvent.writeEntityIndex, RunEvent.writeRelationIndex]
  if knownAlgorithms.contains (pyLower modelName) then
    (pre ++ RunEvent.createModel modelName ::
        ((List.range numIterations).map (· + 1)).flatMap (fun it =>
          [RunEvent.trainEpoch it, RunEvent.writeModelState it,
           RunEvent.writeEntityEmbeddings it, RunEvent.writeRelationEmbeddings it]),
      true)
  else (pre, false)

theorem keyTailToTriple_tripleKey (tr : Triple) :
    keyTailToTriple (tripleKey tr) tr.2.2 = tr := by
  obtain ⟨h, r, t⟩ := tr
  rfl

theorem flattenVocab_vocabAppend (v : ERVocab) (k : Key) (t : Nat) :
    (flattenVocab (vocabAppend v k t) : Multiset Triple) =
      keyTailToTriple k t ::ₘ (flattenVocab v : Multiset Triple) := by
  induction v with
  | nil => simp [vocabAppend, flattenVocab]
  | cons p rest ih =>
      obtain ⟨k', ts⟩ := p
      by_cases hk : k' = k
      · subst hk
        simp [vocabAppend, flattenVocab, Multiset.cons_swap]
      · simp only [vocabAppend, if_neg hk, flattenVocab, List.flatMap_cons] at ih ⊢
        simp only [← Multiset.coe_add, ih, ← Multiset.singleton_add]
        abel

theorem flattenVocab_foldl (data : List Triple) :
    ∀ v : ERVocab,
      (flattenVocab (data.foldl (fun v tr => vocabAppend v (tripleKey tr) tr.2.2) v)
          : Multiset Triple) =
        (flattenVocab v : Multiset Triple) + (data : Multiset Triple) := by
  induction data with
  | nil => intro v; simp
  | cons tr rest ih =>
      intro v
      simp only [List.foldl_cons]
      rw [ih]
      rw [flattenVocab_vocabAppend, keyTailToTriple_tripleKey]
      rw [show ((tr :: rest : List Triple) : Multiset Triple) = tr ::ₘ (rest : Multiset Triple)
        from rfl]
      rw [← Multiset.singleton_add, ← Multiset.singleton_add]
      abel

/-- C6: flattening `get_er_vocab data` back into triples reconstructs the
input triples exactly, as a multiset (round-trip identity). -/
theorem er_vocab_roundtrip (data : List Triple) :
    (flattenVocab (get_er_vocab data) : Multiset Triple) = (data : Multiset Triple) := by
  rw [get_er_vocab, flattenVocab_foldl]
  simp [flattenVocab]

theorem sliceBatch_eq_drop_take (pairs : List Key) (B idx : Nat) :
    sliceBatch pairs B idx = (pairs.drop idx).take B := by
  unfold sliceBatch
  rw [List.take_eq_take]
  rw [List.length_drop]
  rcases le_total (idx + B) pairs.length with h | h
  · rw [min_eq_left h]
    omega
  · rw [min_eq_right h]
    omega

theorem ceil_div_eq (V B : Nat) (hB : 0 < B) :
    (V + B - 1) / B = V / B + (if V % B = 0 then 0 else 1) := by
  obtain ⟨y, hy⟩ : ∃ y, y = B * (V / B) := ⟨_, rfl⟩
  have hqr : y + V % B = V := by rw [hy]; exact Nat.div_add_mod V B
  have hr : V % B < B := Nat.mod_lt _ hB
  by_cases h : V % B = 0
  · rw [if_pos h]
    have h1 : V + B - 1 = B * (V / B) + (B - 1) := by omega
    rw [h1, Nat.mul_add_div hB, Nat.div_eq_of_lt (show B - 1 < B by omega)]
  · rw [if_neg h]
    have h2 : B * (V / B + 1) = B * (V / B) + B := by ring
    have h1 : V + B - 1 = B * (V / B + 1) + (V % B - 1) := by omega
    rw [h1, Nat.mul_add_div hB, Nat.div_eq_of_lt (show V % B - 1 < B by omega)]

theorem le_ceil_mul (V B : Nat) (hB : 0 < B) : V ≤ (V + B - 1) / B * B := by
  rw [ceil_div_eq V B hB]
  obtain ⟨y, hy⟩ : ∃ y, y = V / B * B := ⟨_, rfl⟩
  have hqr : y + V % B = V := by
    rw [hy, Nat.mul_comm]
    exact Nat.div_add_mod V B
  have hr : V % B < B := Nat.mod_lt _ hB
  by_cases h : V % B = 0
  · rw [if_pos h, Nat.add_zero, ← hy]
    omega
  · rw [if_neg h, Nat.add_mul, Nat.one_mul, ← hy]
    omega

theorem flatten_chunks (B : Nat) :
    ∀ (k : Nat) (l : List Key), l.length ≤ k * B →
      ((List.range k).map (fun i => (l.drop (i * B)).take B)).flatten = l := by
  intro k
  induction k with
  | zero =>
      intro l hl
      simp at hl
      simp [hl]
  | succ k ih =>
      intro l hl
      rw [List.range_succ_eq_map, List.map_cons, List.map_map, List.flatten_cons]
      have hmap : ((List.range k).map ((fun i => (l.drop (i * B)).take B) ∘ Nat.succ))
          = (List.range k).map (fun i => ((l.drop B).drop (i * B)).take B) := by
        apply List.map_congr_left
        intro i _
        simp only [Function.comp]
        rw [List.drop_drop]
        have he : B + i * B = Nat.succ i * B := by
          rw [Nat.succ_eq_add_one]
          ring
        rw [he]
      have hlen : (l.drop B).length ≤ k * B := by
        have he : (k + 1) * B = k * B + B := by ring
        rw [List.length_drop]
        omega
      rw [hmap, ih (l.drop B) hlen]
      simp [List.take_append_drop]

/-- C4: for a key list of size `V` and batch size `B > 0`, the batch of
`get_batch` at offset `j` is the slice `keys[j : min(j + B, V)]`; iterating at
the offsets `0, B, 2B, ...` yields `ceil(V/B)` batches; their concatenation is
exactly the full key list (so no key is duplicated, dropped or padded, and the
partial final batch is handled); and the last batch has size `V mod B`, or `B`
when `V mod B = 0`. -/
theorem get_batch_partition (pairs : List Key) (B : Nat) (hB : 0 < B) :
    (∀ N v j, (get_batch B N v pairs j).1 = sliceBatch pairs B j) ∧
      ((strideOffsets pairs.length B).map (sliceBatch pairs B)).length
        = (pairs.length + B - 1) / B ∧
      ((strideOffsets pairs.length B).map (sliceBatch pairs B)).flatten = pairs ∧
      (pairs.Nodup →
        ((strideOffsets pairs.length B).map (sliceBatch pairs B)).flatten.Nodup) ∧
      (0 < pairs.length →
        (((strideOffsets pairs.length B).map (sliceBatch pairs B)).getLast?).map
            List.length
          = some (if pairs.length % B = 0 then B else pairs.length % B)) := by
  have hfun : (sliceBatch pairs B ∘ (· * B)) =
      fun i => (pairs.drop (i * B)).take B := by
    funext i
    exact sliceBatch_eq_drop_take pairs B (i * B)
  have hflat : ((strideOffsets pairs.length B).map (sliceBatch pairs B)).flatten
      = pairs := by
    rw [strideOffsets, List.map_map, hfun]
    exact flatten_chunks B _ pairs (le_ceil_mul pairs.length B hB)
  refine ⟨fun _ _ _ => rfl, ?_, hflat, ?_, ?_⟩
  · simp [strideOffsets]
  · intro hnd
    rwa [hflat]
  · intro hV
    have hk : 0 < (pairs.length + B - 1) / B := by
      apply Nat.div_pos (by omega) hB
    obtain ⟨m, hm⟩ : ∃ m, (pairs.length + B - 1) / B = m + 1 :=
      ⟨_, (Nat.succ_pred_eq_of_pos hk).symm⟩
    rw [strideOffsets, hm, List.range_succ, List.map_append, List.map_append,
      List.map_singleton, List.map_singleton, List.getLast?_concat, Option.map_some']
    rw [sliceBatch_eq_drop_take, List.length_take, List.length_drop]
    refine congrArg some ?_
    have hceil := ceil_div_eq pairs.length B hB
    by_cases h : pairs.length % B = 0
    · rw [if_pos h]
      rw [hceil, if_pos h, Nat.add_zero] at hm
      obtain ⟨y, hy⟩ : ∃ y, y = pairs.length / B * B := ⟨_, rfl⟩
      have hqr : y + pairs.length % B = pairs.length := by
        rw [hy, Nat.mul_comm]
        exact Nat.div_add_mod pairs.length B
      have hy2 : y = m * B + B := by
        rw [hy, hm]
        ring
      have hd : pairs.length - m * B = B := by omega
      rw [hd, min_self]
    · rw [if_neg h]
      rw [hceil, if_neg h] at hm
      have hm2 : pairs.length / B = m := by omega
      obtain ⟨y, hy⟩ : ∃ y, y = pairs.length / B * B := ⟨_, rfl⟩
      have hqr : y + pairs.length % B = pairs.length := by
        rw [hy, Nat.mul_comm]
        exact Nat.div_add_mod pairs.length B
      have hr : pairs.length % B < B := Nat.mod_lt _ hB
      have hy2 : y = m * B := by rw [hy, hm2]
      have hd : pairs.length - m * B = pairs.length % B := by omega
      rw [hd, min_eq_right (le_of_lt hr)]

/-- C4 witness: `V = 3`, `B = 2` — two batches, the concatenation restores
the key list. -/
theorem get_batch_partition_witness :
    ((strideOffsets ([[0, 1], [2, 3], [4, 5]] : List Key).length 2).map
        (sliceBatch [[0, 1], [2, 3], [4, 5]] 2)).flatten
      = [[0, 1], [2, 3], [4, 5]] :=
  (get_batch_partition [[0, 1], [2, 3], [4, 5]] 2 (by norm_num)).2.2.1

theorem foldl_set_getElem (ts : List Nat) :
    ∀ (row : List ℚ) (c : Nat), c < row.length →
      (ts.foldl (fun r t => r.set t 1) row)[c]? =
        if c ∈ ts then some 1 else row[c]? := by
  induction ts with
  | nil => intro row c _; simp
  | cons t ts' ih =>
      intro row c hc
      rw [List.foldl_cons]
      rw [ih (row.set t 1) c (by simpa using hc)]
      by_cases hmem : c ∈ ts'
      · simp [hmem]
      · rw [if_neg hmem]
        rw [List.getElem?_set]
        by_cases htc : t = c
        · subst htc
          simp [hc]
        · have hct : ¬ c = t := fun h => htc h.symm
          simp [htc, hct, List.mem_cons, hmem]

theorem length_foldl_set (ts : List Nat) :
    ∀ (row : List ℚ), (ts.foldl (fun r t => r.set t 1) row).length = row.length := by
  induction ts with
  | nil => intro row; rfl
  | cons t ts' ih =>
      intro row
      rw [List.foldl_cons, ih]
      simp

theorem targetRow_length (ts : List Nat) (N : Nat) : (targetRow ts N).length = N := by
  rw [targetRow, length_foldl_set]
  simp

theorem targetRow_getElem (ts : List Nat) (N c : Nat) (hc : c < N) :
    (targetRow ts N)[c]? = some (if c ∈ ts then 1 else 0) := by
  rw [targetRow, foldl_set_getElem ts (List.replicate N 0) c (by simpa using hc)]
  by_cases h : c ∈ ts
  · simp [h]
  · simp [h, List.getElem?_replicate, hc]

theorem vocabFind_append_left {v : ERVocab} {k : Key} {ts : List Nat}
    (w : ERVocab) (h : vocabFind v k = some ts) :
    vocabFind (v ++ w) k = some ts := by
  induction v with
  | nil => simp [vocabFind] at h
  | cons p rest ih =>
      obtain ⟨k', ts'⟩ := p
      rw [List.cons_append]
      rw [vocabFind] at h ⊢
      by_cases hk : k' = k
      · rwa [if_pos hk] at h ⊢
      · rw [if_neg hk] at h ⊢
        exact ih h

theorem vocabFind_append_none {v : ERVocab} {k : Key}
    (w : ERVocab) (h : vocabFind v k = none) :
    vocabFind (v ++ w) k = vocabFind w k := by
  induction v with
  | nil => simp
  | cons p rest ih =>
      obtain ⟨k', ts'⟩ := p
      rw [List.cons_append]
      rw [vocabFind] at h ⊢
      by_cases hk : k' = k
      · rw [if_pos hk] at h
        exact absurd h (by simp)
      · rw [if_neg hk] at h ⊢
        exact ih h

theorem vocabGet_preserves {v : ERVocab} {k : Key} {ts : List Nat}
    (k' : Key) (h : vocabFind v k = some ts) :
    vocabFind (vocabGet v k').2 k = some ts := by
  unfold vocabGet
  cases hf : vocabFind v k' with
  | some ts' => exact h
  | none => exact vocabFind_append_left _ h

theorem buildTargets_preserves {N : Nat} {k : Key} {ts : List Nat} :
    ∀ (ks : List Key) (v : ERVocab), vocabFind v k = some ts →
      vocabFind (buildTargets N v ks).2 k = some ts := by
  intro ks
  induction ks with
  | nil => intro v h; exact h
  | cons k' ks' ih =>
      intro v h
      rw [buildTargets]
      exact ih _ (vocabGet_preserves k' h)

theorem buildTargets_length (N : Nat) :
    ∀ (ks : List Key) (v : ERVocab), (buildTargets N v ks).1.length = ks.length := by
  intro ks
  induction ks with
  | nil => intro v; rfl
  | cons k' ks' ih =>
      intro v
      rw [buildTargets]
      simp [ih]

theorem buildTargets_row_known {N : Nat} {k : Key} {ts : List Nat} :
    ∀ (ks : List Key) (v : ERVocab) (i : Nat), ks[i]? = some k →
      vocabFind v k = some ts →
      ((buildTargets N v ks).1)[i]? = some (targetRow ts N) := by
  intro ks
  induction ks with
  | nil => intro v i hi _; simp at hi
  | cons k' ks' ih =>
      intro v i hi hfind
      rw [buildTargets]
      cases i with
      | zero =>
          have hk : k' = k := by simpa using hi
          subst hk
          have hget : vocabGet v k' = (ts, v) := by
            unfold vocabGet
            rw [hfind]
          simp [hget]
      | succ i' =>
          simp only [List.getElem?_cons_succ] at hi
          simp only [List.getElem?_cons_succ]
          exact ih _ i' hi (vocabGet_preserves k' hfind)

theorem vocabGet_inv {v : ERVocab} {k : Key} (k' : Key)
    (h : vocabFind v k = none ∨ vocabFind v k = some []) :
    vocabFind (vocabGet v k').2 k = none ∨ vocabFind (vocabGet v k').2 k = some [] := by
  unfold vocabGet
  cases hf : vocabFind v k' with
  | some ts' => exact h
  | none =>
      rcases h with h | h
      · rw [vocabFind_append_none _ h]
        by_cases hk : k' = k
        · subst hk
          right
          simp [vocabFind]
        · left
          simp [vocabFind, hk]
      · right
        exact vocabFind_append_left _ h

theorem buildTargets_row_absent {N : Nat} {k : Key} :
    ∀ (ks : List Key) (v : ERVocab) (i : Nat), ks[i]? = some k →
      (vocabFind v k = none ∨ vocabFind v k = some []) →
      ((buildTargets N v ks).1)[i]? = some (List.replicate N 0) ∧
        vocabFind (buildTargets N v ks).2 k = some [] := by
  intro ks
  induction ks with
  | nil => intro v i hi _; simp at hi
  | cons k' ks' ih =>
      intro v i hi h
      rw [buildTargets]
      cases i with
      | zero =>
          have hk : k' = k := by simpa using hi
          subst hk
          rcases h with h | h
          · have hget : vocabGet v k' = ([], v ++ [(k', [])]) := by
              unfold vocabGet
              rw [h]
            have hfind2 : vocabFind (v ++ [(k', [])]) k' = some [] := by
              rw [vocabFind_append_none _ h]
              simp [vocabFind]
            constructor
            · simp [hget, targetRow]
            · have hp := buildTargets_preserves (N := N) ks' _ hfind2
              simpa [hget] using hp
          · have hget : vocabGet v k' = ([], v) := by
              unfold vocabGet
              rw [h]
            constructor
            · simp [hget, targetRow]
            · have hp := buildTargets_preserves (N := N) ks' _ h
              simpa [hget] using hp
      | succ i2 =>
          simp only [List.getElem?_cons_succ] at hi ⊢
          exact ih _ i2 hi (vocabGet_inv k' h)

theorem mem_vocabAppend {v : ERVocab} {k : Key} {t : Nat} {p : Key × List Nat}
    (h : p ∈ vocabAppend v k t) : p.1 = k ∨ ∃ q ∈ v, p.1 = q.1 := by
  induction v with
  | nil =>
      simp [vocabAppend] at h
      left
      rw [h]
  | cons q rest ih =>
      obtain ⟨kq, tsq⟩ := q
      rw [vocabAppend] at h
      by_cases hk : kq = k
      · rw [if_pos hk] at h
        rcases List.mem_cons.mp h with rfl | h2
        · left
          exact hk
        · right
          exact ⟨p, List.mem_cons_of_mem _ h2, rfl⟩
      · rw [if_neg hk] at h
        rcases List.mem_cons.mp h with rfl | h2
        · right
          exact ⟨(kq, tsq), List.mem_cons_self _ _, rfl⟩
        · rcases ih h2 with h3 | ⟨q2, hq2, hpq⟩
          · left
            exact h3
          · right
            exact ⟨q2, List.mem_cons_of_mem _ hq2, hpq⟩

theorem get_er_vocab_keylen (data : List Triple) :
    ∀ p ∈ get_er_vocab data, p.1.length = 2 := by
  rw [get_er_vocab]
  suffices h : ∀ (l : List Triple) (v : ERVocab), (∀ p ∈ v, p.1.length = 2) →
      ∀ p ∈ l.foldl (fun v tr => vocabAppend v (tripleKey tr) tr.2.2) v,
        p.1.length = 2 by
    exact h data [] (by simp)
  intro l
  induction l with
  | nil =>
      intro v hv
      simpa using hv
  | cons tr rest ih =>
      intro v hv
      rw [List.foldl_cons]
      apply ih
      intro p hp
      rcases mem_vocabAppend hp with h | ⟨q, hq, hpq⟩
      · rw [h]
        rfl
      · rw [hpq]
        exact hv q hq

theorem vocabFind_len3 :
    ∀ (v : ERVocab), (∀ p ∈ v, p.1.length = 2) →
      ∀ (k : Key), k.length = 3 → vocabFind v k = none := by
  intro v
  induction v with
  | nil => intro _ k _; rfl
  | cons p rest ih =>
      intro hv k hk
      obtain ⟨k', ts⟩ := p
      have hk2 : k'.length = 2 := hv (k', ts) (List.mem_cons_self _ _)
      have hne : k' ≠ k := by
        intro he
        rw [he, hk] at hk2
        omega
      rw [vocabFind, if_neg hne]
      exact ih (fun q hq => hv q (List.mem_cons_of_mem _ hq)) k hk

/-- C5: for a key `k` of the batch whose registered tails in the
ER-vocabulary are exactly `ts`, the target row `get_batch` produces for `k`
has width `N` (the total entity count) and holds `1.0` at exactly the columns
in `ts` and `0.0` at every other column. -/
theorem get_batch_target_row (B N : Nat) (v : ERVocab) (pairs : List Key)
    (idx i : Nat) (k : Key) (ts : List Nat)
    (hks : ((get_batch B N v pairs idx).1)[i]? = some k)
    (hfind : vocabFind v k = some ts) :
    ∃ row, ((get_batch B N v pairs idx).2.1)[i]? = some row ∧
      row.length = N ∧
      ∀ c < N, row[c]? = some (if c ∈ ts then 1 else 0) := by
  refine ⟨targetRow ts N, ?_, targetRow_length ts N,
    fun c hc => targetRow_getElem ts N c hc⟩
  exact buildTargets_row_known (sliceBatch pairs B idx) v i hks hfind

theorem mem_sliceBatch {pairs : List Key} {B idx : Nat} {k : Key}
    (h : k ∈ sliceBatch pairs B idx) : k ∈ pairs := by
  unfold sliceBatch at h
  have h1 : k ∈ pairs.drop idx := ((List.take_sublist _ _).subset) h
  exact ((List.drop_sublist _ _).subset) h1

/-- C10: a key absent from the ER-vocabulary gets an all-zero target row
from `get_batch` (no error), and the `defaultdict` read inserts the key with
an empty tail list; in particular `evaluate`, which passes full 3-tuples as
keys against a vocabulary whose keys are all 2-tuples, gets an all-zero
target matrix and leaves every such 3-tuple inserted with an empty list. -/
theorem get_batch_absent_keys (B N idx : Nat) :
    (∀ (v : ERVocab) (pairs : List Key) (i : Nat) (k : Key),
        ((get_batch B N v pairs idx).1)[i]? = some k →
        vocabFind v k = none →
        ((get_batch B N v pairs idx).2.1)[i]? = some (List.replicate N 0) ∧
          vocabFind ((get_batch B N v pairs idx).2.2) k = some []) ∧
      (∀ (data test : List Triple),
        (∀ row ∈ (get_batch B N (get_er_vocab data)
            (test.map tripleAsEvalKey) idx).2.1, row = List.replicate N 0) ∧
        (∀ k ∈ (get_batch B N (get_er_vocab data)
            (test.map tripleAsEvalKey) idx).1,
          vocabFind (get_er_vocab data) k = none ∧
            vocabFind ((get_batch B N (get_er_vocab data)
              (test.map tripleAsEvalKey) idx).2.2) k = some [])) := by
  constructor
  · intro v pairs i k hik hnone
    exact buildTargets_row_absent (sliceBatch pairs B idx) v i hik (Or.inl hnone)
  · intro data test
    have habs : ∀ k ∈ (get_batch B N (get_er_vocab data)
        (test.map tripleAsEvalKey) idx).1, vocabFind (get_er_vocab data) k = none := by
      intro k hk
      have hkp : k ∈ test.map tripleAsEvalKey := mem_sliceBatch hk
      rcases List.mem_map.mp hkp with ⟨tr, _, rfl⟩
      exact vocabFind_len3 _ (get_er_vocab_keylen data) _ rfl
    constructor
    · intro row hrow
      rcases List.mem_iff_getElem?.mp hrow with ⟨i, hi⟩
      have hlen : ((get_batch B N (get_er_vocab data)
          (test.map tripleAsEvalKey) idx).2.1).length
            = ((get_batch B N (get_er_vocab data)
              (test.map tripleAsEvalKey) idx).1).length :=
        buildTargets_length N _ _
      have hilt : i < ((get_batch B N (get_er_vocab data)
          (test.map tripleAsEvalKey) idx).1).length := by
        rw [← hlen]
        exact (List.getElem?_eq_some.mp hi).1
      have hbk : ((get_batch B N (get_er_vocab data)
          (test.map tripleAsEvalKey) idx).1)[i]? = some ((get_batch B N (get_er_vocab data)
          (test.map tripleAsEvalKey) idx).1[i]) := List.getElem?_eq_getElem hilt
      have hmem : (get_batch B N (get_er_vocab data)
          (test.map tripleAsEvalKey) idx).1[i] ∈ (get_batch B N (get_er_vocab data)
          (test.map tripleAsEvalKey) idx).1 := List.getElem_mem hilt
      have hres := buildTargets_row_absent (N := N) _ _ i hbk (Or.inl (habs _ hmem))
      have h2 : ((get_batch B N (get_er_vocab data)
          (test.map tripleAsEvalKey) idx).2.1)[i]? = some (List.replicate N 0) := hres.1
      rw [hi] at h2
      exact Option.some_inj.mp h2
    · intro k hk
      refine ⟨habs k hk, ?_⟩
      rcases List.mem_iff_getElem?.mp hk with ⟨i, hi⟩
      exact (buildTargets_row_absent (N := N) _ _ i hi (Or.inl (habs k hk))).2

/-- C5 witness: batch key `[0, 1]` with registered tails `[2, 0]` and entity
count `3` yields the row `[1, 0, 1]`. -/
theorem get_batch_target_row_witness :
    ∃ row, ((get_batch 1 3 [([0, 1], [2, 0])] [[0, 1]] 0).2.1)[0]? = some row ∧
      row.length = 3 ∧
      ∀ c < 3, row[c]? = some (if c ∈ ([2, 0] : List Nat) then 1 else 0) :=
  get_batch_target_row 1 3 [([0, 1], [2, 0])] [[0, 1]] 0 0 [0, 1] [2, 0]
    (by rfl) (by rfl)

/-- C10 witness: the 3-tuple key `[5, 6, 7]` against the empty vocabulary
gets an all-zero row and is inserted with an empty tail list. -/
theorem get_batch_absent_keys_witness :
    ((get_batch 1 2 [] [[5, 6, 7]] 0).2.1)[0]? = some (List.replicate 2 0) ∧
      vocabFind ((get_batch 1 2 [] [[5, 6, 7]] 0).2.2) [5, 6, 7] = some [] :=
  (get_batch_absent_keys 1 2 0).1 [] [[5, 6, 7]] 0 [5, 6, 7] (by rfl) (by rfl)

theorem vocabGet_fst (v : ERVocab) (k : Key) :
    (vocabGet v k).1 = (vocabFind v k).getD [] := by
  unfold vocabGet
  cases h : vocabFind v k <;> simp

theorem vocabFind_getD_vocabAppend (ka : Key) (t : Nat) (k : Key) :
    ∀ (v : ERVocab),
      (vocabFind (vocabAppend v ka t) k).getD []
        = (vocabFind v k).getD [] ++ (if ka = k then [t] else []) := by
  intro v
  induction v with
  | nil =>
      by_cases h : ka = k <;> simp [vocabAppend, vocabFind, h]
  | cons p rest ih =>
      obtain ⟨k0, ts⟩ := p
      rw [vocabAppend]
      by_cases h0 : k0 = ka
      · rw [if_pos h0]
        by_cases hk : k0 = k
        · have hak : ka = k := h0.symm.trans hk
          rw [vocabFind, if_pos hk, vocabFind, if_pos hk]
          simp [hak]
        · have hak : ¬ ka = k := fun he => hk (h0.trans he)
          rw [vocabFind, if_neg hk, vocabFind, if_neg hk]
          simp [hak]
      · rw [if_neg h0]
        by_cases hk : k0 = k
        · have hak : ¬ ka = k := fun he => h0 (hk.trans he.symm)
          rw [vocabFind, if_pos hk, vocabFind, if_pos hk]
          simp [hak]
        · rw [vocabFind, if_neg hk, vocabFind, if_neg hk]
          exact ih

theorem vocabFind_getD_foldl (l : List Triple) :
    ∀ (v : ERVocab) (k : Key),
      (vocabFind (l.foldl (fun v tr => vocabAppend v (tripleKey tr) tr.2.2) v) k).getD []
        = (vocabFind v k).getD []
            ++ (l.filter (fun tr => tripleKey tr = k)).map (fun tr => tr.2.2) := by
  induction l with
  | nil =>
      intro v k
      simp
  | cons tr rest ih =>
      intro v k
      rw [List.foldl_cons, ih, vocabFind_getD_vocabAppend]
      by_cases h : tripleKey tr = k
      · simp [List.filter_cons, h]
      · simp [List.filter_cons, h]

theorem get_er_vocab_knownTails (data : List Triple) (h r : Nat) :
    (vocabGet (get_er_vocab data) [h, r]).1 = knownTails data h r := by
  rw [vocabGet_fst, get_er_vocab, vocabFind_getD_foldl]
  rw [show (vocabFind [] [h, r]).getD [] = [] from rfl, List.nil_append]
  rw [knownTails]
  congr 1
  apply List.filter_congr
  intro tr _
  obtain ⟨a, b, c⟩ := tr
  simp [tripleKey]

theorem length_foldl_setZero (filt : List Nat) :
    ∀ (s : List ℚ), (filt.foldl (fun s i => s.set i 0) s).length = s.length := by
  induction filt with
  | nil => intro s; rfl
  | cons i rest ih =>
      intro s
      rw [List.foldl_cons, ih]
      simp

theorem foldl_setZero_getElem (filt : List Nat) :
    ∀ (s : List ℚ) (c : Nat),
      (filt.foldl (fun s i => s.set i 0) s)[c]? =
        if c ∈ filt ∧ c < s.length then some 0 else s[c]? := by
  induction filt with
  | nil =>
      intro s c
      simp
  | cons i rest ih =>
      intro s c
      rw [List.foldl_cons, ih (s.set i 0) c]
      rw [List.length_set, List.getElem?_set]
      by_cases hc : c < s.length
      · by_cases hmem : c ∈ rest
        · simp [hmem, hc]
        · by_cases hic : i = c
          · subst hic
            simp [hmem, hc]
          · have hci : ¬ (c = i ∨ c ∈ rest) := by
              rintro (rfl | h)
              · exact hic rfl
              · exact hmem h
            have hci2 : ¬ c = i := fun h => hic h.symm
            simp [hmem, hic, hci2, hc, List.mem_cons]
      · have hnone : s[c]? = none := List.getElem?_eq_none (by omega)
        by_cases hic : i = c
        · subst hic
          simp [hc, hnone]
        · simp [hc, hic, hnone]

theorem applyFilter_eq_spec (scores : List ℚ) (filt : List Nat) (e2 : Nat) :
    applyFilter scores filt e2 = specFilteredScores scores filt e2 := by
  apply List.ext_getElem?
  intro c
  rw [applyFilter, specFilteredScores, List.getElem?_set, foldl_setZero_getElem,
    List.getElem?_map, length_foldl_setZero]
  by_cases hc : c < scores.length
  · rw [List.getElem?_range hc, Option.map_some']
    by_cases he : e2 = c
    · subst he
      simp [hc]
    · have he2 : ¬ c = e2 := fun h => he h.symm
      by_cases hmem : c ∈ filt
      · simp [he, he2, hmem, hc]
      · simp [he, he2, hmem, hc, List.getD_eq_getElem?_getD,
          List.getElem?_eq_getElem hc]
  · have h1 : scores[c]? = none := List.getElem?_eq_none (by omega)
    have h2 : (List.range scores.length)[c]? = none := by
      rw [List.getElem?_eq_none]
      simp only [List.length_range]
      omega
    rw [h2, Option.map_none']
    by_cases he : e2 = c
    · subst he
      simp [hc]
    · simp [he, h1]
      omega

/-- C2: for every evaluation triple `(h, r, t)`, `evaluate` assigns `t` the
rank `1 +` the 0-based position of `t` in the descending sort of the score
vector in which the score of every tail in the filter set for `(h, r)` —
built from the full dataset — has been replaced by `0.0`, except that `t`
itself retains its original raw score. -/
theorem evaluate_rank_filtered (fullData : List Triple) (scores : List ℚ)
    (tr : Triple) :
    evaluateRank fullData scores tr =
      1 + (sortIdxsDesc (specFilteredScores scores
            (knownTails fullData tr.1 tr.2.1) tr.2.2)).indexOf tr.2.2 := by
  obtain ⟨h, r, t⟩ := tr
  unfold evaluateRank evalRank
  rw [show tripleKey (h, r, t) = [h, r] from rfl]
  rw [get_er_vocab_knownTails]
  rw [applyFilter_eq_spec]
  exact Nat.add_comm _ 1

/-- C1 counterexample: with smoothing factor `s = 1/10` and `N = 5` entities,
the training loop maps the target `0.0` to `(1 - s) * 0 + 1/N = 1/5`, not to
`(1 - s) * 0 + s/N = 1/50` as the claim states. -/
theorem label_smoothing_counterexample :
    applyLabelSmoothing (1/10) 5 [[0]] ≠ [[(1 - 1/10) * 0 + (1/10) / 5]] := by
  norm_num [applyLabelSmoothing, smoothEntry]

/-- C1 (amended): for every nonzero smoothing factor `s` and column count `N`,
the training loop transforms each target value `t` into `(1 - s) * t + 1/N`
(the code adds `1.0 / targets.size(1)`, not `s / N`); in particular a target
of `1.0` becomes `(1 - s) + 1/N` and a target of `0.0` becomes `1/N`. -/
theorem label_smoothing_transform (s : ℚ) (N : Nat) (targets : List (List ℚ))
    (hs : s ≠ 0) :
    applyLabelSmoothing s N targets
        = targets.map (List.map (fun t => (1 - s) * t + 1 / (N : ℚ))) ∧
      smoothEntry s N 1 = (1 - s) + 1 / (N : ℚ) ∧
      smoothEntry s N 0 = 1 / (N : ℚ) := by
  refine ⟨?_, ?_, ?_⟩
  · rw [applyLabelSmoothing, if_neg hs]
    rfl
  · unfold smoothEntry; ring
  · unfold smoothEntry; ring

/-- C1 witness: the amended transform at `s = 1/10`, `N = 5`, one row
`[0, 1]`. -/
theorem label_smoothing_transform_witness :
    applyLabelSmoothing (1/10) 5 [[0, 1]]
      = [[(0 : ℚ), 1]].map (List.map (fun t => (1 - 1/10) * t + 1 / (5 : ℚ))) :=
  (label_smoothing_transform (1/10) 5 [[0, 1]] (by norm_num)).1

/-- C3: with `V = 2` vocabulary keys and batch size `B = 1`, the epoch
processes `ceil(V/B) = 2` batches but records exactly one loss value, because
`losses.append(loss.item())` sits after the batch loop, not inside it; the
claim (one recorded loss per batch) describes the evident intent of the
`losses` list and the `avg_loss = np.mean(losses)` display. -/
theorem epoch_loss_recording_bug :
    (epochRecordedLosses (fun j => (j : ℚ)) 2 1).length = 1 ∧ (2 + 1 - 1) / 1 = 2 :=
  ⟨rfl, rfl⟩

/-- C7: epoch `it` evaluates the validation split iff both the validation and
the test split are non-empty (a joint precondition); every evaluation call
runs with the model out of training mode and with gradient tracking off; and
the test split is additionally evaluated exactly when `it` is even. -/
theorem epoch_eval_schedule (validData testData : List Triple) (it : Nat) :
    ((∃ c ∈ epochEvalCalls validData testData it, c.split = Split.valid) ↔
        (validData ≠ [] ∧ testData ≠ [])) ∧
      ((∃ c ∈ epochEvalCalls validData testData it, c.split = Split.test) ↔
        (validData ≠ [] ∧ testData ≠ [] ∧ it % 2 = 0)) ∧
      (∀ c ∈ epochEvalCalls validData testData it,
        c.trainingMode = false ∧ c.gradTracking = false) := by
  by_cases h1 : validData ≠ [] ∧ testData ≠ [] <;>
    by_cases h2 : it % 2 = 0 <;>
      simp [epochEvalCalls, h1, h2]

/-- C7 witness: at epoch 2 with non-empty splits, the test split is
evaluated. -/
theorem epoch_eval_schedule_witness :
    ∃ c ∈ epochEvalCalls [(0, 0, 0)] [(1, 1, 1)] 2, c.split = Split.test :=
  ((epoch_eval_schedule [(0, 0, 0)] [(1, 1, 1)] 2).2.1).mpr (by simp)

/-- C8: `get_data_idxs` fails with a key-lookup error (modelled by `none`)
iff some triple of its input has an entity or relation identifier absent from
the training-built indices; there is no fallback id, and when every identifier
is present it returns the triples with each component replaced by its index. -/
theorem get_data_idxs_lookup (eIdx rIdx : List (String × Nat))
    (data : List RawTriple) :
    (get_data_idxs eIdx rIdx data = none ↔
        ∃ tr ∈ data, idxLookup eIdx tr.1 = none ∨ idxLookup rIdx tr.2.1 = none ∨
          idxLookup eIdx tr.2.2 = none) ∧
      ((∀ tr ∈ data, (idxLookup eIdx tr.1).isSome ∧ (idxLookup rIdx tr.2.1).isSome ∧
          (idxLookup eIdx tr.2.2).isSome) →
        get_data_idxs eIdx rIdx data =
          some (data.map (fun tr =>
            ((idxLookup eIdx tr.1).getD 0, (idxLookup rIdx tr.2.1).getD 0,
             (idxLookup eIdx tr.2.2).getD 0)))) := by
  induction data with
  | nil => simp [get_data_idxs]
  | cons tr rest ih =>
      obtain ⟨ih1, ih2⟩ := ih
      constructor
      · have hbind : get_data_idxs eIdx rIdx (tr :: rest) = none ↔
            (idxLookup eIdx tr.1 = none ∨ idxLookup rIdx tr.2.1 = none ∨
              idxLookup eIdx tr.2.2 = none) ∨ get_data_idxs eIdx rIdx rest = none := by
          cases hh : idxLookup eIdx tr.1 <;> cases hr : idxLookup rIdx tr.2.1 <;>
            cases ht : idxLookup eIdx tr.2.2 <;>
              cases hrec : get_data_idxs eIdx rIdx rest <;>
                simp [get_data_idxs, hh, hr, ht, hrec]
        rw [hbind, ih1]
        constructor
        · rintro (h | ⟨x, hx, hp⟩)
          · exact ⟨tr, by simp, h⟩
          · exact ⟨x, by simp [hx], hp⟩
        · rintro ⟨x, hx, hp⟩
          rcases List.mem_cons.mp hx with rfl | hx2
          · exact Or.inl hp
          · exact Or.inr ⟨x, hx2, hp⟩
      · intro hall
        have h0 := hall tr (by simp)
        rcases Option.isSome_iff_exists.mp h0.1 with ⟨h1, hh⟩
        rcases Option.isSome_iff_exists.mp h0.2.1 with ⟨r1, hr⟩
        rcases Option.isSome_iff_exists.mp h0.2.2 with ⟨t1, ht⟩
        have hrec := ih2 (fun x hx => hall x (by simp [hx]))
        simp [get_data_idxs, hh, hr, ht, hrec]

/-- C8 witness: all identifiers of the triple `("a", "r", "b")` are present,
so indexing succeeds and yields the indexed triple. -/
theorem get_data_idxs_lookup_witness :
    get_data_idxs [("a", 0), ("b", 1)] [("r", 0)] [("a", "r", "b")]
      = some [(0, 0, 1)] := by
  rw [(get_data_idxs_lookup [("a", 0), ("b", 1)] [("r", 0)] [("a", "r", "b")]).2
    (by decide)]
  rfl

/-- C9 counterexample: with the unrecognised algorithm name `"tucker"`, the
run does fail, but only after the entity index mapping has already been
written to durable storage — refuting the claim that no artifact is written
first. -/
theorem unknown_algorithm_counterexample :
    (trainAndEvalTrace "tucker" 3).2 = false ∧
      RunEvent.writeEntityIndex ∈ (trainAndEvalTrace "tucker" 3).1 := by
  constructor
  · decide
  · decide

/-- C9 (amended): if the configured algorithm name is not a known variant
(case-insensitive), the run fails before any model is created — so before any
model state or embedding artifact is written — but *after* the entity and
relation index mapping files have been written. -/
theorem unknown_algorithm_fails (name : String) (n : Nat)
    (h : knownAlgorithms.contains (pyLower name) = false) :
    (trainAndEvalTrace name n).2 = false ∧
      (trainAndEvalTrace name n).1 =
        [RunEvent.writeEntityIndex, RunEvent.writeRelationIndex] := by
  have h' : ¬ pyLower name ∈ knownAlgorithms := by
    simpa using h
  unfold trainAndEvalTrace
  simp [h']

/-- C9 witness: the amended statement at the concrete name `"TuckER"`. -/
theorem unknown_algorithm_fails_witness :
    (trainAndEvalTrace "TuckER" 5).2 = false ∧
      (trainAndEvalTrace "TuckER" 5).1 =
        [RunEvent.writeEntityIndex, RunEvent.writeRelationIndex] :=
  unknown_algorithm_fails "TuckER" 5 (by decide)

end HyperSpec
